import Mathlib

/-!
# PPM pixel buffer (`ppm.h`)

A shallow embedding of the pixel buffer declared in `src/ppm.h`:
`struct ppm_pixel`, `ppm_setpixel`, `struct ppm_image` and `ppm_image_setpixel`
are translated from their C definitions; `ppm_image_init`, `ppm_image_release`
and `ppm_image_dump` are only declared in the header and are modelled from the
specification.

Machine types: `unsigned char` is `Fin 256`; `unsigned int` is a natural number
reduced modulo `2^32` wherever C arithmetic produces it; `int` is an integer.
The pixel pointer `px` is either `NULL` (`none`) or the start of the block of
pixels the image owns (`some mem`).  A C statement with undefined behaviour (a
write outside the owned block, a pointer formed beyond one past its end) has
no resulting state: the operation returns `none`.
-/

/-- An `unsigned char` value. -/
abbrev uchar := Fin 256

/-- The C `struct ppm_pixel` : three 8-bit channels. -/
structure ppm_pixel where
  r : uchar
  g : uchar
  b : uchar
deriving DecidableEq

/-- The C function `ppm_setpixel` : three field assignments through the pointer
`px`, in source order. -/
def ppm_setpixel (px : ppm_pixel) (r g b : uchar) : ppm_pixel :=
  let px1 := { px with r := r }
  let px2 := { px1 with g := g }
  { px2 with b := b }

/-- The C `struct ppm_image` : `width` and `height` are `unsigned int`; `px` is
`NULL` or points to the first pixel of the owned block. -/
structure ppm_image where
  width : Nat
  height : Nat
  px : Option (List ppm_pixel)
deriving DecidableEq

/-- Number of values of an `unsigned int` (32 bits). -/
def UINT_RANGE : Nat := 4294967296

/-- Conversion of an `int` to `unsigned int` : reduction modulo `2^32`. -/
def int_to_unsigned (v : Int) : Nat := (v % 4294967296).toNat

/-- The subexpression `im->width * y` of `ppm_image_setpixel` : `y` is converted
to `unsigned int` and the product is taken modulo `2^32`. -/
def ppm_image_row_base (width : Nat) (y : Int) : Nat :=
  (width * int_to_unsigned y) % UINT_RANGE

/-- The element offset of `im->px + im->width * y + x` from `im->px` : the
unsigned row base, then the signed `x` added by pointer arithmetic. -/
def ppm_image_offset (width : Nat) (x y : Int) : Int :=
  (ppm_image_row_base width y : Int) + x

/-- The C function `ppm_image_setpixel`.  The pointer `im->px + im->width * y`
must not pass one past the end of the block, and the pixel finally addressed
must be an element of the block; then `ppm_setpixel` is run on that element.
Otherwise the behaviour is undefined (`none`). -/
def ppm_image_setpixel (im : ppm_image) (x y : Int) (r g b : uchar) : Option ppm_image :=
  match im.px with
  | none => none
  | some mem =>
    let base := ppm_image_row_base im.width y
    let off := ppm_image_offset im.width x y
    if base ≤ mem.length ∧ 0 ≤ off ∧ off < (mem.length : Int) then
      match mem[off.toNat]? with
      | some old => some { im with px := some (mem.set off.toNat (ppm_setpixel old r g b)) }
      | none => none
    else none

/-- The image invariant of the specification: storage is owned and holds
exactly `width * height` pixels. -/
def ppm_image.initialized (im : ppm_image) : Prop :=
  ∃ mem, im.px = some mem ∧ mem.length = im.width * im.height

instance ppm_image.decidable_initialized (im : ppm_image) : Decidable im.initialized :=
  match h : im.px with
  | none => isFalse (by rintro ⟨m, hm, _⟩; rw [h] at hm; cases hm)
  | some mem =>
    if hl : mem.length = im.width * im.height then isTrue ⟨mem, h, hl⟩
    else isFalse (by rintro ⟨m, hm, hl2⟩; rw [h] at hm; cases hm; exact hl hl2)

/-- Test-only read of the pixel in column `x` of row `y`: the storage element
at the row-major position `y * width + x`. -/
def pixel_at (im : ppm_image) (x y : Nat) : Option ppm_pixel :=
  match im.px with
  | none => none
  | some mem => mem[y * im.width + x]?

/-- A run of `ppm_image_setpixel` calls, one per list entry `(x, y, colour)`,
in list order; undefined as soon as one call is. -/
def ppm_image_setpixels (im : ppm_image) : List (Int × Int × ppm_pixel) → Option ppm_image
  | [] => some im
  | (x, y, c) :: rest =>
    match ppm_image_setpixel im x y c.r c.g c.b with
    | none => none
    | some im1 => ppm_image_setpixels im1 rest

/-- The row-major pixel list of a colour assignment `f` : element `i` is the
colour of column `i % width` in row `i / width`. -/
def row_major (width height : Nat) (f : Nat → Nat → ppm_pixel) : List ppm_pixel :=
  (List.range (width * height)).map (fun i => f (i % width) (i / width))

/-- The calls `ppm_image_setpixel(im, x, y, f(x, y))`, one for each in-bounds
`(x, y)`, listed row by row. -/
def fill_writes (width height : Nat) (f : Nat → Nat → ppm_pixel) :
    List (Int × Int × ppm_pixel) :=
  (List.range (width * height)).map
    (fun i => (((i % width : Nat) : Int), ((i / width : Nat) : Int), f (i % width) (i / width)))

/-- An image of 65536 columns and 65537 rows, every pixel black. -/
def big_image : ppm_image :=
  { width := 65536, height := 65537,
    px := some (List.replicate (65536 * 65537) { r := 0, g := 0, b := 0 }) }

/-- A 2 x 2 image, every pixel black. -/
def image_2x2 : ppm_image :=
  { width := 2, height := 2,
    px := some (List.replicate 4 { r := 0, g := 0, b := 0 }) }

/-- The image a released or failed-to-allocate buffer is left as: no storage,
both dimensions zero. -/
def ppm_image_empty : ppm_image := { width := 0, height := 0, px := none }

/-- Modelled from the spec: the body of `ppm_image_init` is missing from src/
(`ppm.h` only declares it and documents the return value: 0 on success, 1 on
error).  For positive `w` and `h` it allocates storage for exactly `w * h`
pixels and stores both dimensions; when the allocation fails it returns 1 and
the image is left without storage.  Prior contents of `im` are overwritten.
The allocator is the argument `fresh` : `none` when it fails, `some c` when it
succeeds, `c i` being the indeterminate first content of element `i`.  The
specification leaves the behaviour for a dimension below 1 open: no result is
given for it (`none`). -/
def ppm_image_init (_im : ppm_image) (w h : Int) (fresh : Option (Nat → ppm_pixel)) :
    Option (Int × ppm_image) :=
  if w < 1 ∨ h < 1 then none
  else
    match fresh with
    | none => some (1, ppm_image_empty)
    | some c =>
      some (0, { width := w.toNat, height := h.toNat,
                 px := some ((List.range (w.toNat * h.toNat)).map c) })

/-- Modelled from the spec: the body of `ppm_image_release` is missing from
src/ (`ppm.h` only declares it and documents the return value: 0 on success, 1
when the image is already released or invalid).  It frees the owned pixel
storage, if any, and resets width and height to zero and the pointer to
`NULL`; on an image without storage it is a no-op that reports 1.  The third
component of the result is the block handed to `free`, if any. -/
def ppm_image_release (im : ppm_image) : Int × ppm_image × Option (List ppm_pixel) :=
  match im.px with
  | none => (1, im, none)
  | some mem => (0, ppm_image_empty, some mem)

/-- The byte of an ASCII character. -/
def ascii_byte (c : Char) : uchar := ⟨c.toNat % 256, Nat.mod_lt _ (by decide)⟩

/-- The decimal digits of `n`, as ASCII bytes, most significant first. -/
def decimal (n : Nat) : List uchar := (Nat.toDigits 10 n).map ascii_byte

/-- The number a list of ASCII decimal digits denotes. -/
def decimal_value (ds : List uchar) : Nat :=
  ds.foldl (fun acc d => 10 * acc + (d.val - 48)) 0

/-- The raw pixel data of a block: each pixel as the bytes R, G, B, in storage
order. -/
def pixel_data : List ppm_pixel → List uchar
  | [] => []
  | p :: ps => p.r :: p.g :: p.b :: pixel_data ps

/-- Modelled from the spec: the body of `ppm_image_dump` is missing from src/
(`ppm.h` only declares it and documents the return value: 0 on success, 1 on
error).  It writes the line `P6`, the line `<width> <height>`, the line `255`
and then the raw pixel data; dumping an image without storage is an error.
The file system is the argument `writable` : whether the destination can be
opened and written in full.  The second component of the result is the
content of the file written on success; on failure no content is guaranteed. -/
def ppm_image_dump (im : ppm_image) (writable : Bool) : Int × Option (List uchar) :=
  match im.px with
  | none => (1, none)
  | some mem =>
    if writable then
      (0, some ([80, 54, 10] ++ (decimal im.width ++ [32] ++ decimal im.height ++ [10]) ++
                [50, 53, 53, 10] ++ pixel_data mem))
    else (1, none)

/-! ## `ppm_setpixel` -/

theorem ppm_setpixel_eq (px : ppm_pixel) (r g b : uchar) :
    ppm_setpixel px r g b = { r := r, g := g, b := b } := rfl

/-! ## Offsets -/

theorem int_to_unsigned_of_nonneg (y : Int) (h0 : 0 ≤ y) (h1 : y < 4294967296) :
    int_to_unsigned y = y.toNat := by
  unfold int_to_unsigned
  rw [Int.emod_eq_of_lt h0 h1]

theorem ppm_image_row_base_le (width : Nat) (y : Int) (h0 : 0 ≤ y) :
    ppm_image_row_base width y ≤ width * y.toNat := by
  unfold ppm_image_row_base int_to_unsigned
  have h1 : (y % 4294967296).toNat ≤ y.toNat := by omega
  exact le_trans (Nat.mod_le _ _) (Nat.mul_le_mul_left _ h1)

/-- Without wrap-around the row base is the exact product. -/
theorem ppm_image_row_base_exact (width : Nat) (y : Int) (h0 : 0 ≤ y)
    (h : width * y.toNat < 4294967296) (hy : y < 4294967296) :
    ppm_image_row_base width y = width * y.toNat := by
  unfold ppm_image_row_base UINT_RANGE
  rw [int_to_unsigned_of_nonneg y h0 hy]
  exact Nat.mod_eq_of_lt h

/-- For in-bounds coordinates the row base and the offset stay inside the
`width * height` elements, whatever the dimensions. -/
theorem ppm_image_offset_in_storage (width height : Nat) (x y : Int)
    (hx0 : 0 ≤ x) (hx : x < width) (hy0 : 0 ≤ y) (hy : y < height) :
    ppm_image_row_base width y ≤ width * height ∧
      0 ≤ ppm_image_offset width x y ∧
      ppm_image_offset width x y < ((width * height : Nat) : Int) := by
  have hb := ppm_image_row_base_le width y hy0
  have hy1 : y.toNat + 1 ≤ height := by omega
  have hm : width * (y.toNat + 1) ≤ width * height := Nat.mul_le_mul_left _ hy1
  have hm2 : width * (y.toNat + 1) = width * y.toNat + width := by ring
  unfold ppm_image_offset
  refine ⟨by omega, by omega, ?_⟩
  omega

/-- The effect of a call whose row base and offset are inside the block. -/
theorem ppm_image_setpixel_of_offset (im : ppm_image) (mem : List ppm_pixel)
    (x y : Int) (r g b : uchar) (hpx : im.px = some mem)
    (hbase : ppm_image_row_base im.width y ≤ mem.length)
    (h0 : 0 ≤ ppm_image_offset im.width x y)
    (h1 : ppm_image_offset im.width x y < (mem.length : Int)) :
    ppm_image_setpixel im x y r g b =
      some { im with px := some (mem.set (ppm_image_offset im.width x y).toNat
                                  { r := r, g := g, b := b }) } := by
  have hlt : (ppm_image_offset im.width x y).toNat < mem.length := by omega
  unfold ppm_image_setpixel
  rw [hpx]
  simp only [hbase, h0, h1, and_self, if_true, List.getElem?_eq_getElem hlt, ppm_setpixel_eq]

/-- A call that addresses an element outside the block is undefined. -/
theorem ppm_image_setpixel_outside (im : ppm_image) (mem : List ppm_pixel)
    (x y : Int) (r g b : uchar) (hpx : im.px = some mem)
    (h : ppm_image_offset im.width x y < 0 ∨
        (mem.length : Int) ≤ ppm_image_offset im.width x y) :
    ppm_image_setpixel im x y r g b = none := by
  unfold ppm_image_setpixel
  rw [hpx]
  have hn : ¬ (ppm_image_row_base im.width y ≤ mem.length ∧
      0 ≤ ppm_image_offset im.width x y ∧
      ppm_image_offset im.width x y < (mem.length : Int)) := by omega
  simp only [hn, if_false]

/-- In-bounds calls are defined on every initialized image. -/
theorem ppm_image_setpixel_in_bounds (im : ppm_image) (mem : List ppm_pixel)
    (x y : Int) (r g b : uchar) (hpx : im.px = some mem)
    (hlen : mem.length = im.width * im.height)
    (hx0 : 0 ≤ x) (hx : x < im.width) (hy0 : 0 ≤ y) (hy : y < im.height) :
    ppm_image_setpixel im x y r g b =
      some { im with px := some (mem.set (ppm_image_offset im.width x y).toNat
                                  { r := r, g := g, b := b }) } := by
  obtain ⟨hb, h0, h1⟩ := ppm_image_offset_in_storage im.width im.height x y hx0 hx hy0 hy
  rw [← hlen] at hb h1
  exact ppm_image_setpixel_of_offset im mem x y r g b hpx hb h0 h1

/-- When the pixel count fits 32 bits, the offset of in-bounds coordinates is
the row-major position. -/
theorem ppm_image_offset_exact (width height : Nat) (x y : Int)
    (hsize : width * height ≤ 4294967296)
    (hx0 : 0 ≤ x) (hx : x < width) (hy0 : 0 ≤ y) (hy : y < height) :
    ppm_image_offset width x y = y * width + x := by
  have hy1 : y.toNat + 1 ≤ height := by omega
  have hm : width * (y.toNat + 1) ≤ width * height := Nat.mul_le_mul_left _ hy1
  have hm2 : width * (y.toNat + 1) = width * y.toNat + width := by ring
  have hw : 0 < width := by omega
  have hlt : width * y.toNat < 4294967296 := by omega
  have hyb : y < 4294967296 := by
    have : height ≤ width * height := Nat.le_mul_of_pos_left _ hw
    omega
  unfold ppm_image_offset
  rw [ppm_image_row_base_exact width y hy0 hlt hyb]
  have hyy : ((y.toNat : Nat) : Int) = y := Int.toNat_of_nonneg hy0
  push_cast
  rw [hyy]
  ring

/-- When the pixel count fits 32 bits, an in-bounds call replaces exactly the
storage element at the row-major position `y * width + x`. -/
theorem ppm_image_setpixel_row_major (im : ppm_image) (mem : List ppm_pixel)
    (x y : Nat) (r g b : uchar) (hpx : im.px = some mem)
    (hlen : mem.length = im.width * im.height)
    (hsize : im.width * im.height ≤ 4294967296) (hx : x < im.width) (hy : y < im.height) :
    ppm_image_setpixel im x y r g b =
      some { im with px := some (mem.set (y * im.width + x) { r := r, g := g, b := b }) } := by
  have hoff := ppm_image_offset_exact im.width im.height x y hsize (Int.ofNat_nonneg _)
    (by exact_mod_cast hx) (Int.ofNat_nonneg _) (by exact_mod_cast hy)
  have hcast : ((y : Int) * im.width + x) = ((y * im.width + x : Nat) : Int) := by push_cast; rfl
  rw [ppm_image_setpixel_in_bounds im mem x y r g b hpx hlen (Int.ofNat_nonneg _)
    (by exact_mod_cast hx) (Int.ofNat_nonneg _) (by exact_mod_cast hy), hoff, hcast,
    Int.toNat_ofNat]

/-- When the pixel count fits 32 bits, the pixel read back at in-bounds
coordinates after a call there is the triple written. -/
theorem ppm_image_setpixel_read_back (im : ppm_image) (mem : List ppm_pixel)
    (x y : Nat) (r g b : uchar) (hpx : im.px = some mem)
    (hlen : mem.length = im.width * im.height)
    (hsize : im.width * im.height ≤ 4294967296) (hx : x < im.width) (hy : y < im.height) :
    ∃ im1, ppm_image_setpixel im x y r g b = some im1 ∧
      pixel_at im1 x y = some { r := r, g := g, b := b } := by
  refine ⟨_, ppm_image_setpixel_row_major im mem x y r g b hpx hlen hsize hx hy, ?_⟩
  have hy1 : y + 1 ≤ im.height := hy
  have hm : (y + 1) * im.width ≤ im.height * im.width := Nat.mul_le_mul_right _ hy1
  have hm2 : (y + 1) * im.width = y * im.width + im.width := by ring
  have hcomm : im.height * im.width = im.width * im.height := Nat.mul_comm _ _
  show (mem.set (y * im.width + x) _)[y * im.width + x]? = _
  rw [List.getElem?_set_self (by omega)]

/-! ## Filling an image whose pixel count fits 32 bits -/

/-- The storage after the writes of `ws`, each replacing its row-major element. -/
theorem ppm_image_setpixels_small (width height : Nat) (f : Nat → Nat → ppm_pixel)
    (hsize : width * height ≤ 4294967296) (ws : List (Nat × Nat)) :
    ∀ (im : ppm_image) (mem : List ppm_pixel), im.width = width → im.height = height →
      im.px = some mem → mem.length = width * height →
      (∀ c ∈ ws, c.1 < width ∧ c.2 < height) →
      ppm_image_setpixels im (ws.map (fun c => ((c.1 : Int), (c.2 : Int), f c.1 c.2))) =
        some { im with
          px := some (ws.foldl (fun m c => m.set (c.2 * width + c.1) (f c.1 c.2)) mem) } := by
  induction ws with
  | nil =>
    intro im mem _ _ hpx _ _
    show some im = some { im with px := some mem }
    rw [← hpx]
  | cons c rest ih =>
    intro im mem hw hh hpx hlen hall
    have hc := hall c (List.mem_cons_self _ _)
    have hstep := ppm_image_setpixel_row_major im mem c.1 c.2 (f c.1 c.2).r (f c.1 c.2).g
      (f c.1 c.2).b hpx (by rw [hlen, hw, hh]) (by rw [hw, hh]; exact hsize)
      (by rw [hw]; exact hc.1) (by rw [hh]; exact hc.2)
    rw [List.map_cons, List.foldl_cons]
    show (match ppm_image_setpixel im c.1 c.2 (f c.1 c.2).r (f c.1 c.2).g (f c.1 c.2).b with
      | none => none
      | some im2 => ppm_image_setpixels im2 _) = _
    rw [hstep]
    simp only
    rw [ih { im with px := some (mem.set (c.2 * im.width + c.1) (f c.1 c.2)) }
      (mem.set (c.2 * im.width + c.1) (f c.1 c.2)) hw hh rfl
      (by rw [List.length_set, hlen]) (fun d hd => hall d (List.mem_cons_of_mem _ hd)), hw]

theorem foldl_set_length (width : Nat) (f : Nat → Nat → ppm_pixel) (ws : List (Nat × Nat)) :
    ∀ mem : List ppm_pixel,
      (ws.foldl (fun m c => m.set (c.2 * width + c.1) (f c.1 c.2)) mem).length = mem.length := by
  induction ws with
  | nil => intro mem; rfl
  | cons c rest ih => intro mem; rw [List.foldl_cons, ih, List.length_set]

theorem foldl_set_untouched (width : Nat) (f : Nat → Nat → ppm_pixel) (i : Nat)
    (ws : List (Nat × Nat)) :
    ∀ mem : List ppm_pixel, (∀ c ∈ ws, c.2 * width + c.1 ≠ i) →
      (ws.foldl (fun m c => m.set (c.2 * width + c.1) (f c.1 c.2)) mem)[i]? = mem[i]? := by
  induction ws with
  | nil => intro mem _; rfl
  | cons c rest ih =>
    intro mem hne
    rw [List.foldl_cons, ih _ (fun d hd => hne d (List.mem_cons_of_mem _ hd)),
      List.getElem?_set_ne (hne c (List.mem_cons_self _ _))]

theorem foldl_set_written (width : Nat) (f : Nat → Nat → ppm_pixel) (i : Nat)
    (ws : List (Nat × Nat)) :
    ∀ mem : List ppm_pixel, i < mem.length → (∀ c ∈ ws, c.1 < width) →
      (∃ c ∈ ws, c.2 * width + c.1 = i) →
      (ws.foldl (fun m c => m.set (c.2 * width + c.1) (f c.1 c.2)) mem)[i]? =
        some (f (i % width) (i / width)) := by
  induction ws with
  | nil => intro mem _ _ hex; obtain ⟨c, hc, _⟩ := hex; exact absurd hc (List.not_mem_nil _)
  | cons c rest ih =>
    intro mem hi hcol hex
    rw [List.foldl_cons]
    by_cases hlater : ∃ d ∈ rest, d.2 * width + d.1 = i
    · exact ih _ (by rw [List.length_set]; exact hi)
        (fun d hd => hcol d (List.mem_cons_of_mem _ hd)) hlater
    · have hne : ∀ d ∈ rest, d.2 * width + d.1 ≠ i := fun d hd he => hlater ⟨d, hd, he⟩
      have hci : c.2 * width + c.1 = i := by
        obtain ⟨d, hd, he⟩ := hex
        rcases List.mem_cons.mp hd with rfl | hd
        · exact he
        · exact absurd he (hne d hd)
      have hcw := hcol c (List.mem_cons_self _ _)
      have hmod : i % width = c.1 := by
        rw [← hci, Nat.add_comm, Nat.add_mul_mod_self_right, Nat.mod_eq_of_lt hcw]
      have hdiv : i / width = c.2 := by
        rw [← hci, Nat.add_comm, Nat.add_mul_div_right _ _ (by omega),
          Nat.div_eq_of_lt hcw, Nat.zero_add]
      rw [foldl_set_untouched width f i rest _ hne, hci, List.getElem?_set_self hi, hmod, hdiv]

/-- When the pixel count fits 32 bits, a run of calls that covers every
in-bounds coordinate, in any order and from any initial contents, with the
colour `f x y` at `(x, y)`, leaves the storage equal to the row-major list of
`f`. -/
theorem fill_row_major_small (width height : Nat) (f : Nat → Nat → ppm_pixel)
    (hsize : width * height ≤ 4294967296) (ws : List (Nat × Nat))
    (im : ppm_image) (mem : List ppm_pixel) (hw : im.width = width) (hh : im.height = height)
    (hpx : im.px = some mem) (hlen : mem.length = width * height)
    (hin : ∀ c ∈ ws, c.1 < width ∧ c.2 < height)
    (hall : ∀ x y : Nat, x < width → y < height → (x, y) ∈ ws) :
    ppm_image_setpixels im (ws.map (fun c => ((c.1 : Int), (c.2 : Int), f c.1 c.2))) =
      some { im with px := some (row_major width height f) } := by
  rw [ppm_image_setpixels_small width height f hsize ws im mem hw hh hpx hlen hin]
  have hmem : ws.foldl (fun m c => m.set (c.2 * width + c.1) (f c.1 c.2)) mem =
      row_major width height f := by
    apply List.ext_getElem?
    intro i
    unfold row_major
    rw [List.getElem?_map]
    by_cases hi : i < width * height
    · have hwpos : 0 < width := by
        rcases Nat.eq_zero_or_pos width with h0 | h0
        · rw [h0, Nat.zero_mul] at hi; exact absurd hi (Nat.not_lt_zero _)
        · exact h0
      have hdiv : i / width < height := by
        rw [Nat.div_lt_iff_lt_mul hwpos, Nat.mul_comm]; exact hi
      have hmod : i % width < width := Nat.mod_lt _ hwpos
      rw [foldl_set_written width f i ws mem (by rw [hlen]; exact hi) (fun c hc => (hin c hc).1)
        ⟨(i % width, i / width), hall _ _ hmod hdiv, by
          show i / width * width + i % width = i
          rw [Nat.mul_comm]; exact Nat.div_add_mod i width⟩,
        List.getElem?_range hi]
      rfl
    · have h1 : (List.range (width * height))[i]? = none :=
        List.getElem?_eq_none (by rw [List.length_range]; omega)
      rw [h1, List.getElem?_eq_none (by rw [foldl_set_length, hlen]; omega)]
      rfl
  rw [hmem]

/-! ## The 32-bit row base on an image of more than `2^32` pixels -/

theorem big_image_px :
    big_image.px = some (List.replicate (65536 * 65537) { r := 0, g := 0, b := 0 }) := rfl

theorem big_image_row_wraps : ppm_image_row_base 65536 65536 = 0 := by
  unfold ppm_image_row_base int_to_unsigned UINT_RANGE
  have h : ((65536 : Int) % 4294967296).toNat = 65536 := by decide
  rw [h]

/-- The call at column 0 of the last row of `big_image` writes element 0. -/
theorem big_image_setpixel_last_row (r g b : uchar) :
    ppm_image_setpixel big_image 0 65536 r g b =
      some { big_image with
        px := some ((List.replicate (65536 * 65537) { r := 0, g := 0, b := 0 }).set 0
                     { r := r, g := g, b := b }) } := by
  have hoff : ppm_image_offset big_image.width 0 65536 = 0 := by
    show ppm_image_offset 65536 0 65536 = 0
    unfold ppm_image_offset
    rw [big_image_row_wraps]
    norm_num
  have hbase : ppm_image_row_base big_image.width 65536 = 0 := big_image_row_wraps
  have h := ppm_image_setpixel_of_offset big_image _ 0 65536 r g b big_image_px
    (by rw [hbase]; exact Nat.zero_le _) (by rw [hoff])
    (by rw [hoff, List.length_replicate]; norm_num)
  rw [h, hoff]
  rfl

/-- Claim C10: `ppm_setpixel` overwrites a pixel wholesale: after the call the
red, green and blue channels are `r`, `g`, `b`, and the result is the same for
every prior pixel value. -/
theorem ppm_setpixel_overwrites (p : ppm_pixel) (r g b : uchar) :
    (ppm_setpixel p r g b).r = r ∧ (ppm_setpixel p r g b).g = g ∧
      (ppm_setpixel p r g b).b = b ∧
      ∀ q : ppm_pixel, ppm_setpixel q r g b = ppm_setpixel p r g b :=
  ⟨rfl, rfl, rfl, fun _ => rfl⟩

/-- Claim C1, at an image of 65536 x 65537 pixels: after
`ppm_image_setpixel(im, 0, 65536, 255, 255, 255)` the pixel read at column 0 of
row 65536 (storage element `65536 * 65536`) is still the old black pixel, and
the white triple is found at column 0 of row 0 instead. -/
theorem big_image_setpixel_then_read :
    ∃ im1, ppm_image_setpixel big_image 0 65536 255 255 255 = some im1 ∧
      pixel_at im1 0 65536 = some { r := 0, g := 0, b := 0 } ∧
      pixel_at im1 0 0 = some { r := 255, g := 255, b := 255 } := by
  refine ⟨_, big_image_setpixel_last_row 255 255 255, ?_, ?_⟩
  · show (List.set _ 0 _)[65536 * 65536 + 0]? = _
    rw [List.getElem?_set_ne (by norm_num), List.getElem?_replicate_of_lt (by norm_num)]
  · show (List.set _ 0 _)[0 * 65536 + 0]? = _
    rw [List.getElem?_set_self (by rw [List.length_replicate]; norm_num)]

/-- Claim C2, at an image of 65536 x 65537 pixels: the pixel sequence after
`ppm_image_setpixel(im, 0, 65536, 255, 255, 255)` is the old one with element 0
replaced, which differs from the old one with element `65536 * 65536 + 0`
replaced. -/
theorem big_image_setpixel_replaces_element_zero :
    ppm_image_setpixel big_image 0 65536 255 255 255 =
        some { big_image with
          px := some ((List.replicate (65536 * 65537) { r := 0, g := 0, b := 0 }).set 0
                       { r := 255, g := 255, b := 255 }) } ∧
      (List.replicate (65536 * 65537) ({ r := 0, g := 0, b := 0 } : ppm_pixel)).set 0
          { r := 255, g := 255, b := 255 } ≠
        (List.replicate (65536 * 65537) ({ r := 0, g := 0, b := 0 } : ppm_pixel)).set
          (65536 * 65536 + 0) { r := 255, g := 255, b := 255 } := by
  refine ⟨big_image_setpixel_last_row 255 255 255, fun h => ?_⟩
  have h0 := congrArg (fun l : List ppm_pixel => l[0]?) h
  simp only at h0
  rw [List.getElem?_set_self (by rw [List.length_replicate]; norm_num),
    List.getElem?_set_ne (by norm_num), List.getElem?_replicate_of_lt (by norm_num)] at h0
  exact absurd h0 (by decide)

/-- Claim C4, at an image of 65536 x 65537 pixels: for the far corner
`(width-1, height-1) = (65535, 65536)` the offset computed is 65535, not
`width * height - 1 = 4295032831`; the call is defined and writes element 65535. -/
theorem big_image_far_corner_offset :
    ppm_image_offset big_image.width 65535 65536 = 65535 ∧
      (65535 : Int) ≠ (big_image.width * big_image.height : Nat) - 1 ∧
      ppm_image_setpixel big_image 65535 65536 255 255 255 =
        some { big_image with
          px := some ((List.replicate (65536 * 65537) { r := 0, g := 0, b := 0 }).set 65535
                       { r := 255, g := 255, b := 255 }) } := by
  have hoff : ppm_image_offset big_image.width 65535 65536 = 65535 := by
    show ppm_image_offset 65536 65535 65536 = 65535
    unfold ppm_image_offset
    rw [big_image_row_wraps]
    norm_num
  have hbase : ppm_image_row_base big_image.width 65536 = 0 := big_image_row_wraps
  refine ⟨hoff, ?_, ?_⟩
  · show (65535 : Int) ≠ ((65536 * 65537 : Nat) : Int) - 1
    norm_num
  · have h := ppm_image_setpixel_of_offset big_image _ 65535 65536 255 255 255 big_image_px
      (by rw [hbase]; exact Nat.zero_le _) (by rw [hoff]; norm_num)
      (by rw [hoff, List.length_replicate]; norm_num)
    rw [h, hoff]
    rfl

/-- On a width of 65536 every in-bounds column gives an offset below `2^32`. -/
theorem offset_65536_lt (x y : Int) (hx0 : 0 ≤ x) (hx : x < 65536) :
    0 ≤ ppm_image_offset 65536 x y ∧ ppm_image_offset 65536 x y < 4294967296 := by
  unfold ppm_image_offset ppm_image_row_base int_to_unsigned UINT_RANGE
  omega

/-- On an image of 65536 x 65537 pixels no run of in-bounds calls reaches
storage element `2^32`. -/
theorem big_writes_keep_high (ws : List (Int × Int × ppm_pixel)) :
    ∀ (im : ppm_image) (mem : List ppm_pixel), im.width = 65536 → im.height = 65537 →
      im.px = some mem → mem.length = 65536 * 65537 →
      (∀ w ∈ ws, 0 ≤ w.1 ∧ w.1 < 65536 ∧ 0 ≤ w.2.1 ∧ w.2.1 < 65537) →
      ∃ im1 mem1, ppm_image_setpixels im ws = some im1 ∧ im1.px = some mem1 ∧
        mem1[4294967296]? = mem[4294967296]? := by
  induction ws with
  | nil => intro im mem _ _ hpx _ _; exact ⟨im, mem, rfl, hpx, rfl⟩
  | cons w rest ih =>
    intro im mem hw hh hpx hlen hall
    obtain ⟨x, y, c⟩ := w
    have hb := hall (x, y, c) (List.mem_cons_self _ _)
    simp only at hb
    have hstep := ppm_image_setpixel_in_bounds im mem x y c.r c.g c.b hpx
      (by rw [hlen, hw, hh]) hb.1 (by rw [hw]; exact_mod_cast hb.2.1) hb.2.2.1
      (by rw [hh]; exact_mod_cast hb.2.2.2)
    have hoff := offset_65536_lt x y hb.1 hb.2.1
    have hoffw : ppm_image_offset im.width x y = ppm_image_offset 65536 x y := by rw [hw]
    rw [hoffw] at hstep
    obtain ⟨im1, mem1, hrun, hpx1, hget⟩ :=
      ih { im with px := some (mem.set (ppm_image_offset 65536 x y).toNat
                                { r := c.r, g := c.g, b := c.b }) }
        (mem.set (ppm_image_offset 65536 x y).toNat { r := c.r, g := c.g, b := c.b })
        hw hh rfl (by rw [List.length_set, hlen])
        (fun w hmem => hall w (List.mem_cons_of_mem _ hmem))
    refine ⟨im1, mem1, ?_, hpx1, ?_⟩
    · show (match ppm_image_setpixel im x y c.r c.g c.b with
        | none => none
        | some im2 => ppm_image_setpixels im2 rest) = some im1
      rw [hstep]
      exact hrun
    · rw [hget, List.getElem?_set_ne (by omega)]

theorem fill_writes_in_bounds_65536 (f : Nat → Nat → ppm_pixel) :
    ∀ w ∈ fill_writes 65536 65537 f, 0 ≤ w.1 ∧ w.1 < 65536 ∧ 0 ≤ w.2.1 ∧ w.2.1 < 65537 := by
  intro w hmem
  unfold fill_writes at hmem
  rw [List.mem_map] at hmem
  obtain ⟨i, hi, rfl⟩ := hmem
  rw [List.mem_range] at hi
  simp only
  omega

/-- Claim C3, at an image of 65536 x 65537 pixels that starts all black: after
one `ppm_image_setpixel` call with white for each in-bounds `(x, y)` the run is
defined, but the storage is not the row-major list of the colour assignment
(element `2^32` is never written). -/
theorem big_image_fill_is_not_row_major :
    ∃ im1, ppm_image_setpixels big_image
        (fill_writes 65536 65537 (fun _ _ => { r := 255, g := 255, b := 255 })) = some im1 ∧
      im1.px ≠ some (row_major 65536 65537 (fun _ _ => { r := 255, g := 255, b := 255 })) := by
  obtain ⟨im1, mem1, hrun, hpx1, hget⟩ := big_writes_keep_high _ big_image _ rfl rfl
    big_image_px (by rw [List.length_replicate])
    (fill_writes_in_bounds_65536 (fun _ _ => { r := 255, g := 255, b := 255 }))
  refine ⟨im1, hrun, fun h => ?_⟩
  rw [hpx1] at h
  have hm : mem1 = row_major 65536 65537 (fun _ _ => { r := 255, g := 255, b := 255 }) :=
    Option.some.inj h
  rw [hm, List.getElem?_replicate_of_lt (by norm_num)] at hget
  unfold row_major at hget
  rw [List.getElem?_map, List.getElem?_range (by norm_num)] at hget
  exact absurd hget (by decide)

/-- The scenario of the specification on a 2 x 2 image: red at (0,0), green at
(1,0), blue at (0,1), white at (1,1) leaves the storage red, green, blue, white. -/
theorem scenario_2x2_storage :
    ppm_image_setpixels image_2x2
        [(0, 0, { r := 255, g := 0, b := 0 }), (1, 0, { r := 0, g := 255, b := 0 }),
         (0, 1, { r := 0, g := 0, b := 255 }), (1, 1, { r := 255, g := 255, b := 255 })] =
      some { width := 2, height := 2,
             px := some [{ r := 255, g := 0, b := 0 }, { r := 0, g := 255, b := 0 },
                         { r := 0, g := 0, b := 255 }, { r := 255, g := 255, b := 255 }] } := by
  decide

/-! ## Coordinates outside the image -/

theorem ppm_image_row_base_zero (width : Nat) : ppm_image_row_base width 0 = 0 := by
  unfold ppm_image_row_base int_to_unsigned
  have h : ((0 : Int) % 4294967296).toNat = 0 := by decide
  rw [h, Nat.mul_zero, Nat.zero_mod]

theorem ppm_image_offset_row_zero (width : Nat) (x : Int) : ppm_image_offset width x 0 = x := by
  unfold ppm_image_offset
  rw [ppm_image_row_base_zero]
  simp

/-- Claim C5 fails on a 2 x 2 black image: `ppm_image_setpixel(im, 2, 0, 255,
255, 255)`, whose column equals the width, is carried out and turns storage
element 2, the pixel at (0,1), white. -/
theorem setpixel_at_width_changes_storage :
    ppm_image_setpixel image_2x2 2 0 255 255 255 =
        some { width := 2, height := 2,
               px := some [{ r := 0, g := 0, b := 0 }, { r := 0, g := 0, b := 0 },
                           { r := 255, g := 255, b := 255 }, { r := 0, g := 0, b := 0 }] } ∧
      some [({ r := 0, g := 0, b := 0 } : ppm_pixel), { r := 0, g := 0, b := 0 },
            { r := 255, g := 255, b := 255 }, { r := 0, g := 0, b := 0 }] ≠ image_2x2.px := by
  decide

/-- Claim C5 as amended: `ppm_image_setpixel` checks no coordinate.  On an
initialized image the call at `(-1, 0)` addresses the element before the
storage and is undefined; the call at `(width, 0)` is undefined when
`width = 0` or `height ≤ 1`, and otherwise overwrites storage element `width`
(the pixel at (0,1)) with `(r, g, b)`, every other element, `width` and
`height` staying as they were. -/
theorem ppm_image_setpixel_unchecked (im : ppm_image) (mem : List ppm_pixel) (r g b : uchar)
    (hpx : im.px = some mem) (hlen : mem.length = im.width * im.height) :
    ppm_image_setpixel im (-1) 0 r g b = none ∧
      ppm_image_setpixel im im.width 0 r g b =
        if 1 ≤ im.width ∧ 2 ≤ im.height then
          some { im with px := some (mem.set im.width { r := r, g := g, b := b }) }
        else none := by
  constructor
  · apply ppm_image_setpixel_outside im mem _ _ r g b hpx
    rw [ppm_image_offset_row_zero]
    left
    norm_num
  · by_cases hc : 1 ≤ im.width ∧ 2 ≤ im.height
    · rw [if_pos hc]
      have hm : im.width * 2 ≤ im.width * im.height := Nat.mul_le_mul_left _ hc.2
      have h := ppm_image_setpixel_of_offset im mem im.width 0 r g b hpx
        (by rw [ppm_image_row_base_zero]; exact Nat.zero_le _)
        (by rw [ppm_image_offset_row_zero]; exact Int.ofNat_nonneg _)
        (by rw [ppm_image_offset_row_zero, hlen]; omega)
      rw [h, ppm_image_offset_row_zero, Int.toNat_ofNat]
    · rw [if_neg hc]
      apply ppm_image_setpixel_outside im mem _ _ r g b hpx
      rw [ppm_image_offset_row_zero, hlen]
      right
      rcases Nat.lt_or_ge im.width 1 with hw | hw
      · have hw0 : im.width = 0 := by omega
        rw [hw0, Nat.zero_mul]
      · have hh : im.height ≤ 1 := by
          by_contra hcon
          exact hc ⟨hw, by omega⟩
        have hm : im.width * im.height ≤ im.width * 1 := Nat.mul_le_mul_left _ hh
        omega

/-- The amended claim C5 on the 2 x 2 black image, with white as the colour. -/
theorem ppm_image_setpixel_unchecked_witness :
    image_2x2.px = some (List.replicate 4 { r := 0, g := 0, b := 0 }) ∧
      (List.replicate 4 ({ r := 0, g := 0, b := 0 } : ppm_pixel)).length =
        image_2x2.width * image_2x2.height ∧
      ppm_image_setpixel image_2x2 (-1) 0 255 255 255 = none ∧
      ppm_image_setpixel image_2x2 image_2x2.width 0 255 255 255 =
        if 1 ≤ image_2x2.width ∧ 2 ≤ image_2x2.height then
          some { image_2x2 with
            px := some ((List.replicate 4 { r := 0, g := 0, b := 0 }).set image_2x2.width
                         { r := 255, g := 255, b := 255 }) }
        else none :=
  ⟨rfl, rfl, ppm_image_setpixel_unchecked image_2x2 _ 255 255 255 rfl rfl⟩

/-! ## The image invariant -/

/-- Claim C6: `ppm_image_setpixel` preserves the image invariant.  Whatever the
image and the arguments, after a call `width` and `height` are what they were
and the pixel storage has the length it had, so `pixels length = width *
height` holds after the call whenever it held before. -/
theorem ppm_image_setpixel_preserves_invariant (im im1 : ppm_image) (x y : Int) (r g b : uchar)
    (h : ppm_image_setpixel im x y r g b = some im1) :
    im1.width = im.width ∧ im1.height = im.height ∧
      (∃ mem mem1, im.px = some mem ∧ im1.px = some mem1 ∧ mem1.length = mem.length) ∧
      (im.initialized → im1.initialized) := by
  unfold ppm_image_setpixel at h
  cases hpx : im.px with
  | none => rw [hpx] at h; exact absurd h (by simp)
  | some mem =>
    rw [hpx] at h
    simp only at h
    split_ifs at h with hc
    cases hget : mem[(ppm_image_offset im.width x y).toNat]? with
    | none => rw [hget] at h; exact absurd h (by simp)
    | some old =>
      rw [hget] at h
      simp only [Option.some.injEq] at h
      subst h
      refine ⟨rfl, rfl, ⟨mem, _, rfl, rfl, List.length_set _ _ _⟩, ?_⟩
      rintro ⟨mem0, hpx0, hlen0⟩
      rw [hpx] at hpx0
      cases hpx0
      exact ⟨_, rfl, by rw [List.length_set]; exact hlen0⟩

/-- Claim C6 on the 2 x 2 black image, for the call at (1,1) with white. -/
theorem ppm_image_setpixel_preserves_invariant_witness :
    ppm_image_setpixel image_2x2 1 1 255 255 255 =
        some { width := 2, height := 2,
               px := some [{ r := 0, g := 0, b := 0 }, { r := 0, g := 0, b := 0 },
                           { r := 0, g := 0, b := 0 }, { r := 255, g := 255, b := 255 }] } ∧
      (2 = image_2x2.width ∧ 2 = image_2x2.height ∧
        (∃ mem mem1, image_2x2.px = some mem ∧
          some [({ r := 0, g := 0, b := 0 } : ppm_pixel), { r := 0, g := 0, b := 0 },
                { r := 0, g := 0, b := 0 }, { r := 255, g := 255, b := 255 }] = some mem1 ∧
          mem1.length = mem.length) ∧
        (image_2x2.initialized →
          ppm_image.initialized
            { width := 2, height := 2,
              px := some [{ r := 0, g := 0, b := 0 }, { r := 0, g := 0, b := 0 },
                          { r := 0, g := 0, b := 0 }, { r := 255, g := 255, b := 255 }] })) :=
  ⟨by decide,
    ppm_image_setpixel_preserves_invariant image_2x2
      { width := 2, height := 2,
        px := some [{ r := 0, g := 0, b := 0 }, { r := 0, g := 0, b := 0 },
                    { r := 0, g := 0, b := 0 }, { r := 255, g := 255, b := 255 }] }
      1 1 255 255 255 (by decide)⟩

/-! ## `ppm_image_init` and `ppm_image_release` -/

/-- Claim C9: for `width ≥ 1` and `height ≥ 1`, when the allocation succeeds
`ppm_image_init` returns 0, stores `width` and `height` in the image and the
image owns storage of exactly `width * height` pixels; when the allocation
fails it returns 1 and the image has no storage. -/
theorem ppm_image_init_result (im : ppm_image) (w h : Int) (hw : 1 ≤ w) (hh : 1 ≤ h) :
    (∀ c : Nat → ppm_pixel, ∃ im1 mem,
        ppm_image_init im w h (some c) = some (0, im1) ∧
        (im1.width : Int) = w ∧ (im1.height : Int) = h ∧
        im1.px = some mem ∧ mem.length = im1.width * im1.height) ∧
      ∃ im2, ppm_image_init im w h none = some (1, im2) ∧ im2.px = none := by
  have hc : ¬ (w < 1 ∨ h < 1) := by omega
  constructor
  · intro c
    refine ⟨{ width := w.toNat, height := h.toNat,
              px := some ((List.range (w.toNat * h.toNat)).map c) },
      (List.range (w.toNat * h.toNat)).map c, ?_, ?_, ?_, rfl, ?_⟩
    · unfold ppm_image_init
      rw [if_neg hc]
    · exact Int.toNat_of_nonneg (by omega)
    · exact Int.toNat_of_nonneg (by omega)
    · rw [List.length_map, List.length_range]
  · refine ⟨ppm_image_empty, ?_, rfl⟩
    unfold ppm_image_init
    rw [if_neg hc]

/-- Claim C9 for a 2 x 3 image. -/
theorem ppm_image_init_result_witness :
    (1 : Int) ≤ 2 ∧ (1 : Int) ≤ 3 ∧
      (∀ c : Nat → ppm_pixel, ∃ im1 mem,
        ppm_image_init ppm_image_empty 2 3 (some c) = some (0, im1) ∧
        (im1.width : Int) = 2 ∧ (im1.height : Int) = 3 ∧
        im1.px = some mem ∧ mem.length = im1.width * im1.height) ∧
      ∃ im2, ppm_image_init ppm_image_empty 2 3 none = some (1, im2) ∧ im2.px = none :=
  ⟨by decide, by decide, ppm_image_init_result ppm_image_empty 2 3 (by decide) (by decide)⟩

/-- Claim C8: two successive calls of `ppm_image_release` on an initialized
image.  The first returns 0, frees the storage and leaves width 0, height 0
and a null pointer; the second frees nothing, leaves that same released image
and returns 1. -/
theorem ppm_image_release_twice (im : ppm_image) (h : im.initialized) :
    ∃ mem, im.px = some mem ∧
      ppm_image_release im = (0, { width := 0, height := 0, px := none }, some mem) ∧
      ppm_image_release (ppm_image_release im).2.1 =
        (1, { width := 0, height := 0, px := none }, none) := by
  obtain ⟨mem, hpx, _⟩ := h
  have h1 : ppm_image_release im = (0, ppm_image_empty, some mem) := by
    unfold ppm_image_release
    rw [hpx]
  refine ⟨mem, hpx, h1, ?_⟩
  rw [h1]
  rfl

/-- Claim C8 on the 2 x 2 black image. -/
theorem ppm_image_release_twice_witness :
    image_2x2.initialized ∧
      ∃ mem, image_2x2.px = some mem ∧
        ppm_image_release image_2x2 = (0, { width := 0, height := 0, px := none }, some mem) ∧
        ppm_image_release (ppm_image_release image_2x2).2.1 =
          (1, { width := 0, height := 0, px := none }, none) :=
  ⟨⟨_, rfl, rfl⟩, ppm_image_release_twice image_2x2 ⟨_, rfl, rfl⟩⟩

/-! ## `ppm_image_dump` -/

theorem ascii_byte_digitChar (k : Nat) (hk : k < 10) :
    (ascii_byte (Nat.digitChar k)).val - 48 = k := by
  interval_cases k <;> rfl

theorem decimal_value_toDigitsCore (fuel : Nat) :
    ∀ (n : Nat) (ds : List Char), n < fuel →
      ((Nat.toDigitsCore 10 fuel n ds).map ascii_byte).foldl
          (fun acc d => 10 * acc + (d.val - 48)) 0 =
        (ds.map ascii_byte).foldl (fun acc d => 10 * acc + (d.val - 48)) n := by
  induction fuel with
  | zero => intro n ds h; exact absurd h (Nat.not_lt_zero _)
  | succ fuel ih =>
    intro n ds hn
    have hd := ascii_byte_digitChar (n % 10) (Nat.mod_lt _ (by decide))
    unfold Nat.toDigitsCore
    simp only
    split_ifs with h0
    · have hn10 : n % 10 = n := by omega
      rw [List.map_cons, List.foldl_cons, hd, hn10, Nat.mul_zero, Nat.zero_add]
    · rw [ih (n / 10) _ (by omega), List.map_cons, List.foldl_cons, hd]
      have hdm : 10 * (n / 10) + n % 10 = n := Nat.div_add_mod n 10
      rw [hdm]

/-- Reading the decimal rendering of `n` back gives `n`. -/
theorem decimal_value_decimal (n : Nat) : decimal_value (decimal n) = n := by
  unfold decimal_value decimal Nat.toDigits
  rw [decimal_value_toDigitsCore (n + 1) n [] (Nat.lt_succ_self n)]
  rfl

theorem pixel_data_length (mem : List ppm_pixel) : (pixel_data mem).length = mem.length * 3 := by
  induction mem with
  | nil => rfl
  | cons p ps ih =>
    unfold pixel_data
    simp only [List.length_cons, ih]
    omega

/-- Pixel `i` of the block occupies bytes `3 i`, `3 i + 1`, `3 i + 2` of the
pixel data, as R, G, B. -/
theorem pixel_data_getElem (mem : List ppm_pixel) :
    ∀ (i : Nat) (p : ppm_pixel), mem[i]? = some p →
      (pixel_data mem)[3 * i]? = some p.r ∧ (pixel_data mem)[3 * i + 1]? = some p.g ∧
        (pixel_data mem)[3 * i + 2]? = some p.b := by
  induction mem with
  | nil => intro i p h; simp at h
  | cons q qs ih =>
    intro i p h
    cases i with
    | zero =>
      simp only [List.getElem?_cons_zero, Option.some.injEq] at h
      subst h
      unfold pixel_data
      simp
    | succ j =>
      rw [List.getElem?_cons_succ] at h
      obtain ⟨hr, hg, hb⟩ := ih j p h
      have key : ∀ k : Nat, (pixel_data (q :: qs))[k + 3]? = (pixel_data qs)[k]? := by
        intro k
        rw [pixel_data, show k + 3 = k + 1 + 1 + 1 by ring, List.getElem?_cons_succ,
          List.getElem?_cons_succ, List.getElem?_cons_succ]
      refine ⟨?_, ?_, ?_⟩
      · rw [show 3 * (j + 1) = 3 * j + 3 by ring, key]
        exact hr
      · rw [show 3 * (j + 1) + 1 = 3 * j + 1 + 3 by ring, key]
        exact hg
      · rw [show 3 * (j + 1) + 2 = 3 * j + 2 + 3 by ring, key]
        exact hb

/-- Claim C7: for an initialized `width x height` image, when the destination
is writable `ppm_image_dump` returns 0 and the file is the bytes `P6\n`, then
`<width> <height>\n` with both numbers in decimal, then `255\n`, followed at
once by `width * height * 3` bytes of pixel data: the pixel of column `x`, row
`y` fills bytes `3 (y width + x)` to `3 (y width + x) + 2` as R, G, B.  On an
I/O error it returns 1. -/
theorem ppm_image_dump_format (im : ppm_image) (h : im.initialized) :
    ∃ payload : List uchar,
      ppm_image_dump im true =
        (0, some ([80, 54, 10] ++ (decimal im.width ++ [32] ++ decimal im.height ++ [10]) ++
                  [50, 53, 53, 10] ++ payload)) ∧
      decimal_value (decimal im.width) = im.width ∧
      decimal_value (decimal im.height) = im.height ∧
      payload.length = im.width * im.height * 3 ∧
      (∀ x y : Nat, x < im.width → y < im.height →
        ∃ p, pixel_at im x y = some p ∧
          payload[3 * (y * im.width + x)]? = some p.r ∧
          payload[3 * (y * im.width + x) + 1]? = some p.g ∧
          payload[3 * (y * im.width + x) + 2]? = some p.b) ∧
      (ppm_image_dump im false).1 = 1 := by
  obtain ⟨mem, hpx, hlen⟩ := h
  refine ⟨pixel_data mem, ?_, decimal_value_decimal _, decimal_value_decimal _, ?_, ?_, ?_⟩
  · unfold ppm_image_dump
    rw [hpx]
    rfl
  · rw [pixel_data_length, hlen]
  · intro x y hx hy
    have hy1 : y + 1 ≤ im.height := hy
    have hm : (y + 1) * im.width ≤ im.height * im.width := Nat.mul_le_mul_right _ hy1
    have hm2 : (y + 1) * im.width = y * im.width + im.width := by ring
    have hcomm : im.height * im.width = im.width * im.height := Nat.mul_comm _ _
    have hlt : y * im.width + x < mem.length := by omega
    refine ⟨mem[y * im.width + x], ?_, ?_⟩
    · unfold pixel_at
      rw [hpx]
      exact List.getElem?_eq_getElem hlt
    · exact pixel_data_getElem mem _ _ (List.getElem?_eq_getElem hlt)
  · unfold ppm_image_dump
    rw [hpx]
    rfl

/-- The image of the 2 x 2 scenario: red, green, blue, white. -/
theorem scenario_2x2_dump :
    ppm_image_dump
        { width := 2, height := 2,
          px := some [{ r := 255, g := 0, b := 0 }, { r := 0, g := 255, b := 0 },
                      { r := 0, g := 0, b := 255 }, { r := 255, g := 255, b := 255 }] } true =
      (0, some [80, 54, 10, 50, 32, 50, 10, 50, 53, 53, 10,
                255, 0, 0, 0, 255, 0, 0, 0, 255, 255, 255, 255]) := by
  decide

/-- Claim C7 on the 2 x 2 black image. -/
theorem ppm_image_dump_format_witness :
    image_2x2.initialized ∧
    ∃ payload : List uchar,
      ppm_image_dump image_2x2 true =
        (0, some ([80, 54, 10] ++
                  (decimal image_2x2.width ++ [32] ++ decimal image_2x2.height ++ [10]) ++
                  [50, 53, 53, 10] ++ payload)) ∧
      decimal_value (decimal image_2x2.width) = image_2x2.width ∧
      decimal_value (decimal image_2x2.height) = image_2x2.height ∧
      payload.length = image_2x2.width * image_2x2.height * 3 ∧
      (∀ x y : Nat, x < image_2x2.width → y < image_2x2.height →
        ∃ p, pixel_at image_2x2 x y = some p ∧
          payload[3 * (y * image_2x2.width + x)]? = some p.r ∧
          payload[3 * (y * image_2x2.width + x) + 1]? = some p.g ∧
          payload[3 * (y * image_2x2.width + x) + 2]? = some p.b) ∧
      (ppm_image_dump image_2x2 false).1 = 1 :=
  ⟨⟨_, rfl, rfl⟩, ppm_image_dump_format image_2x2 ⟨_, rfl, rfl⟩⟩

/-! ## Frame, commutation and last write -/

/-- Row-major positions of in-bounds coordinates determine the coordinates. -/
theorem row_major_index_inj (width x y x1 y1 : Nat) (hx : x < width) (hx1 : x1 < width)
    (h : y * width + x = y1 * width + x1) : x = x1 ∧ y = y1 := by
  have hw : 0 < width := by omega
  have hm : (y * width + x) % width = x := by
    rw [Nat.add_comm, Nat.add_mul_mod_self_right, Nat.mod_eq_of_lt hx]
  have hm1 : (y1 * width + x1) % width = x1 := by
    rw [Nat.add_comm, Nat.add_mul_mod_self_right, Nat.mod_eq_of_lt hx1]
  have hd : (y * width + x) / width = y := by
    rw [Nat.add_comm, Nat.add_mul_div_right _ _ hw, Nat.div_eq_of_lt hx, Nat.zero_add]
  have hd1 : (y1 * width + x1) / width = y1 := by
    rw [Nat.add_comm, Nat.add_mul_div_right _ _ hw, Nat.div_eq_of_lt hx1, Nat.zero_add]
  rw [h] at hm hd
  exact ⟨hm.symm.trans hm1, hd.symm.trans hd1⟩

/-- In-bounds coordinates have a row-major position inside the storage. -/
theorem row_major_index_lt (width height x y : Nat) (hx : x < width) (hy : y < height) :
    y * width + x < width * height := by
  have hy1 : y + 1 ≤ height := hy
  have hm : (y + 1) * width ≤ height * width := Nat.mul_le_mul_right _ hy1
  have hm2 : (y + 1) * width = y * width + width := by ring
  have hcomm : height * width = width * height := Nat.mul_comm _ _
  omega

/-- Claim C11 (frame): on an initialized image with `width * height ≤ 2^32`, a
call of `ppm_image_setpixel` at in-bounds `(x, y)` leaves the pixel at every
other in-bounds `(x1, y1)` unchanged; the map `(x, y) -> y * width + x` is
injective on in-bounds coordinates. -/
theorem ppm_image_setpixel_frame (im : ppm_image) (x y x1 y1 : Nat) (r g b : uchar)
    (hinit : im.initialized) (hsize : im.width * im.height ≤ 4294967296)
    (hx : x < im.width) (hy : y < im.height) (hx1 : x1 < im.width) (_hy1 : y1 < im.height)
    (hne : (x1, y1) ≠ (x, y)) :
    (∃ im1, ppm_image_setpixel im x y r g b = some im1 ∧
        pixel_at im1 x1 y1 = pixel_at im x1 y1) ∧
      y1 * im.width + x1 ≠ y * im.width + x := by
  obtain ⟨mem, hpx, hlen⟩ := hinit
  have hidx : y1 * im.width + x1 ≠ y * im.width + x := by
    intro he
    obtain ⟨e1, e2⟩ := row_major_index_inj im.width x1 y1 x y hx1 hx he
    exact hne (by rw [e1, e2])
  refine ⟨⟨_, ppm_image_setpixel_row_major im mem x y r g b hpx hlen hsize hx hy, ?_⟩, hidx⟩
  unfold pixel_at
  rw [hpx]
  show (mem.set (y * im.width + x) _)[y1 * im.width + x1]? = mem[y1 * im.width + x1]?
  rw [List.getElem?_set_ne (Ne.symm hidx)]

/-- Claim C11 on the 2 x 2 black image: writing white at (1,0) leaves (0,1). -/
theorem ppm_image_setpixel_frame_witness :
    image_2x2.initialized ∧
      ((∃ im1, ppm_image_setpixel image_2x2 ((1 : Nat) : Int) ((0 : Nat) : Int) 255 255 255 =
            some im1 ∧ pixel_at im1 0 1 = pixel_at image_2x2 0 1) ∧
        1 * image_2x2.width + 0 ≠ 0 * image_2x2.width + 1) :=
  ⟨by decide, ppm_image_setpixel_frame image_2x2 1 0 0 1 255 255 255 (by decide) (by decide)
    (by decide) (by decide) (by decide) (by decide) (by decide)⟩

/-- Claim C12: the offset of `ppm_image_setpixel` is `im->width * y` taken in
unsigned 32-bit arithmetic (`y` converted to unsigned, product modulo `2^32`)
plus the signed `x`; it is the element the call writes, and for `width *
height ≤ 2^32` and in-bounds `x`, `y` it equals the exact integer `y * width +
x`. -/
theorem ppm_image_offset_machine (im : ppm_image) (mem : List ppm_pixel) (x y : Int)
    (r g b : uchar) (hpx : im.px = some mem) (hlen : mem.length = im.width * im.height)
    (hsize : im.width * im.height ≤ 4294967296)
    (hx0 : 0 ≤ x) (hx : x < im.width) (hy0 : 0 ≤ y) (hy : y < im.height) :
    ppm_image_offset im.width x y =
        (((im.width * (y % 4294967296).toNat) % 4294967296 : Nat) : Int) + x ∧
      ppm_image_offset im.width x y = y * im.width + x ∧
      ppm_image_setpixel im x y r g b =
        some { im with px := some (mem.set (ppm_image_offset im.width x y).toNat
                                    { r := r, g := g, b := b }) } :=
  ⟨rfl, ppm_image_offset_exact im.width im.height x y hsize hx0 hx hy0 hy,
    ppm_image_setpixel_in_bounds im mem x y r g b hpx hlen hx0 hx hy0 hy⟩

/-- Claim C12 on the 2 x 2 black image, at (1,1). -/
theorem ppm_image_offset_machine_witness :
    ppm_image_offset image_2x2.width 1 1 =
        (((image_2x2.width * ((1 : Int) % 4294967296).toNat) % 4294967296 : Nat) : Int) + 1 ∧
      ppm_image_offset image_2x2.width 1 1 = 1 * image_2x2.width + 1 ∧
      ppm_image_setpixel image_2x2 1 1 255 255 255 =
        some { image_2x2 with
          px := some ((List.replicate 4 { r := 0, g := 0, b := 0 }).set
                       (ppm_image_offset image_2x2.width 1 1).toNat
                       { r := 255, g := 255, b := 255 }) } :=
  ppm_image_offset_machine image_2x2 _ 1 1 255 255 255 rfl rfl (by decide) (by decide)
    (by decide) (by decide) (by decide)

/-- On a width of 65536 the calls at (0,0) and at (0,65536) both write storage
element 0. -/
theorem setpixel_65536_element_zero (im : ppm_image) (mem : List ppm_pixel) (r g b : uchar)
    (hw : im.width = 65536) (hpx : im.px = some mem) (hlen : 0 < mem.length) :
    ppm_image_setpixel im 0 0 r g b =
        some { im with px := some (mem.set 0 { r := r, g := g, b := b }) } ∧
      ppm_image_setpixel im 0 65536 r g b =
        some { im with px := some (mem.set 0 { r := r, g := g, b := b }) } := by
  have hoff0 : ppm_image_offset im.width 0 0 = 0 := ppm_image_offset_row_zero _ _
  have hbase0 : ppm_image_row_base im.width 0 = 0 := ppm_image_row_base_zero _
  have hbase : ppm_image_row_base im.width 65536 = 0 := by rw [hw]; exact big_image_row_wraps
  have hoff : ppm_image_offset im.width 0 65536 = 0 := by
    unfold ppm_image_offset
    rw [hbase]
    rfl
  constructor
  · rw [ppm_image_setpixel_of_offset im mem 0 0 r g b hpx (by rw [hbase0]; exact Nat.zero_le _)
      (by rw [hoff0]) (by rw [hoff0]; exact_mod_cast hlen), hoff0]
    rfl
  · rw [ppm_image_setpixel_of_offset im mem 0 65536 r g b hpx
      (by rw [hbase]; exact Nat.zero_le _) (by rw [hoff]) (by rw [hoff]; exact_mod_cast hlen),
      hoff]
    rfl

/-- Claim C13: on the image with width 65536 and height 65537 (more than `2^32`
pixels) the distinct in-bounds coordinates (0,0) and (0,65536) get the same
offset 0 from `ppm_image_setpixel`, which for (0,65536) differs from `y * width
+ x`; a write at (0,65536) overwrites the pixel written at (0,0). -/
theorem big_image_offsets_collide :
    ((0 : Int) < big_image.width ∧ (0 : Int) < big_image.height ∧
        (65536 : Int) < big_image.height) ∧
      ppm_image_offset big_image.width 0 0 = ppm_image_offset big_image.width 0 65536 ∧
      ppm_image_offset big_image.width 0 65536 ≠ 65536 * (big_image.width : Int) + 0 ∧
      ∃ im1 im2, ppm_image_setpixel big_image 0 0 255 0 0 = some im1 ∧
        pixel_at im1 0 0 = some { r := 255, g := 0, b := 0 } ∧
        ppm_image_setpixel im1 0 65536 0 255 0 = some im2 ∧
        pixel_at im2 0 0 = some { r := 0, g := 255, b := 0 } := by
  have hoff0 : ppm_image_offset big_image.width 0 0 = 0 := ppm_image_offset_row_zero _ _
  have hoff : ppm_image_offset big_image.width 0 65536 = 0 := by
    show ppm_image_offset 65536 0 65536 = 0
    unfold ppm_image_offset
    rw [big_image_row_wraps]
    rfl
  have hlen : 0 < (List.replicate (65536 * 65537) ({ r := 0, g := 0, b := 0 } : ppm_pixel)).length := by
    rw [List.length_replicate]
    norm_num
  have hdim : (0 : Int) < big_image.width ∧ (0 : Int) < big_image.height ∧
      (65536 : Int) < big_image.height := by
    show (0 : Int) < ((65536 : Nat) : Int) ∧ (0 : Int) < ((65537 : Nat) : Int) ∧
      (65536 : Int) < ((65537 : Nat) : Int)
    norm_num
  refine ⟨hdim, by rw [hoff0, hoff], ?_, ?_⟩
  · rw [hoff]
    show (0 : Int) ≠ 65536 * ((65536 : Nat) : Int) + 0
    norm_num
  · refine ⟨_, _, (setpixel_65536_element_zero big_image _ 255 0 0 rfl big_image_px hlen).1, ?_,
      (setpixel_65536_element_zero _ _ 0 255 0 rfl rfl
        (by rw [List.length_set]; exact hlen)).2, ?_⟩
    · show (List.set _ 0 _)[0 * 65536 + 0]? = _
      rw [List.getElem?_set_self hlen]
    · show (List.set (List.set _ 0 _) 0 _)[0 * 65536 + 0]? = _
      rw [List.getElem?_set_self (by rw [List.length_set]; exact hlen)]

/-- Only the linear offset matters: a call whose row is in bounds and whose
offset `y * width + x` falls inside the storage writes that element, like the
call at the coordinates the offset denotes. -/
theorem ppm_image_setpixel_by_offset (im : ppm_image) (mem : List ppm_pixel) (x y : Int)
    (r g b : uchar) (hpx : im.px = some mem) (hlen : mem.length = im.width * im.height)
    (hw : 1 ≤ im.width) (hsize : im.width * im.height ≤ 4294967296)
    (hy0 : 0 ≤ y) (hy : y < im.height)
    (h0 : 0 ≤ y * im.width + x) (h1 : y * im.width + x < ((im.width * im.height : Nat) : Int)) :
    ppm_image_setpixel im x y r g b =
        some { im with px := some (mem.set (y * im.width + x).toNat
                                    { r := r, g := g, b := b }) } ∧
      ppm_image_setpixel im ((y * im.width + x) % im.width) ((y * im.width + x) / im.width)
          r g b =
        some { im with px := some (mem.set (y * im.width + x).toNat
                                    { r := r, g := g, b := b }) } := by
  have hy1 : y.toNat + 1 ≤ im.height := by omega
  have hm : im.width * (y.toNat + 1) ≤ im.width * im.height := Nat.mul_le_mul_left _ hy1
  have hm2 : im.width * (y.toNat + 1) = im.width * y.toNat + im.width := by ring
  have hh : im.height ≤ im.width * im.height := Nat.le_mul_of_pos_left _ hw
  have hbase : ppm_image_row_base im.width y = im.width * y.toNat :=
    ppm_image_row_base_exact im.width y hy0 (by omega) (by omega)
  have hyy : ((y.toNat : Nat) : Int) = y := Int.toNat_of_nonneg hy0
  have hoff : ppm_image_offset im.width x y = y * im.width + x := by
    unfold ppm_image_offset
    rw [hbase]
    push_cast
    rw [hyy]
    ring
  constructor
  · rw [ppm_image_setpixel_of_offset im mem x y r g b hpx (by rw [hbase, hlen]; omega)
      (by rw [hoff]; exact h0) (by rw [hoff, hlen]; exact h1), hoff]
  · obtain ⟨k, hk⟩ := Int.eq_ofNat_of_zero_le h0
    rw [hk] at h1 ⊢
    have hk1 : k < im.width * im.height := by exact_mod_cast h1
    have hmod : k % im.width < im.width := Nat.mod_lt _ hw
    have hdiv : k / im.width < im.height := by
      rw [Nat.div_lt_iff_lt_mul hw, Nat.mul_comm]; exact hk1
    have hrow := ppm_image_setpixel_row_major im mem (k % im.width) (k / im.width) r g b hpx hlen
      hsize hmod hdiv
    have hsum : k / im.width * im.width + k % im.width = k := by
      rw [Nat.mul_comm]; exact Nat.div_add_mod k im.width
    rw [hsum] at hrow
    rw [Int.toNat_ofNat, ← hrow]
    norm_cast

/-- Claim C14: `ppm_image_setpixel` checks neither coordinate, only the linear
offset matters.  On an initialized image with `width ≥ 1` and `width * height
≤ 2^32`, for `y` in `[0, height)` and any integer `x` with `0 ≤ y * width + x <
width * height`, the call at `(x, y)` has the effect of the call at `((y *
width + x) mod width, (y * width + x) div width)`; so `(width, 0)` writes the
pixel (0,1) and `(-1, 1)` writes the pixel `(width - 1, 0)` when `height ≥ 2`. -/
theorem ppm_image_setpixel_linear_offset (im : ppm_image) (mem : List ppm_pixel)
    (r g b : uchar) (hpx : im.px = some mem) (hlen : mem.length = im.width * im.height)
    (hw : 1 ≤ im.width) (hsize : im.width * im.height ≤ 4294967296) :
    (∀ x y : Int, 0 ≤ y → y < im.height → 0 ≤ y * im.width + x →
        y * im.width + x < ((im.width * im.height : Nat) : Int) →
        ppm_image_setpixel im x y r g b =
          ppm_image_setpixel im ((y * im.width + x) % im.width)
            ((y * im.width + x) / im.width) r g b ∧
        ppm_image_setpixel im x y r g b =
          some { im with px := some (mem.set (y * im.width + x).toNat
                                      { r := r, g := g, b := b }) }) ∧
      (2 ≤ im.height →
        ppm_image_setpixel im im.width 0 r g b = ppm_image_setpixel im 0 1 r g b ∧
        ppm_image_setpixel im (-1) 1 r g b = ppm_image_setpixel im (im.width - 1) 0 r g b) := by
  have hgen := ppm_image_setpixel_by_offset im mem
  constructor
  · intro x y hy0 hy h0 h1
    obtain ⟨ha, hb⟩ := hgen x y r g b hpx hlen hw hsize hy0 hy h0 h1
    exact ⟨by rw [ha, hb], ha⟩
  · intro hh
    have hm : im.width * 2 ≤ im.width * im.height := Nat.mul_le_mul_left _ hh
    have hwi : (1 : Int) ≤ im.width := by exact_mod_cast hw
    obtain ⟨a1, _⟩ := hgen im.width 0 r g b hpx hlen hw hsize (le_refl _) (by omega)
      (by omega) (by push_cast; omega)
    obtain ⟨a2, _⟩ := hgen 0 1 r g b hpx hlen hw hsize (by omega) (by omega)
      (by omega) (by push_cast; omega)
    obtain ⟨a3, _⟩ := hgen (-1) 1 r g b hpx hlen hw hsize (by omega) (by omega)
      (by omega) (by push_cast; omega)
    obtain ⟨a4, _⟩ := hgen (im.width - 1) 0 r g b hpx hlen hw hsize (le_refl _) (by omega)
      (by omega) (by push_cast; omega)
    constructor
    · rw [a1, a2]
      congr 4
      omega
    · rw [a3, a4]
      congr 4
      omega

/-- Claim C14 on the 2 x 2 black image. -/
theorem ppm_image_setpixel_linear_offset_witness :
    (∀ x y : Int, 0 ≤ y → y < image_2x2.height → 0 ≤ y * image_2x2.width + x →
        y * image_2x2.width + x < ((image_2x2.width * image_2x2.height : Nat) : Int) →
        ppm_image_setpixel image_2x2 x y 255 255 255 =
          ppm_image_setpixel image_2x2 ((y * image_2x2.width + x) % image_2x2.width)
            ((y * image_2x2.width + x) / image_2x2.width) 255 255 255 ∧
        ppm_image_setpixel image_2x2 x y 255 255 255 =
          some { image_2x2 with
            px := some ((List.replicate 4 { r := 0, g := 0, b := 0 }).set
                         (y * image_2x2.width + x).toNat { r := 255, g := 255, b := 255 }) }) ∧
      (2 ≤ image_2x2.height →
        ppm_image_setpixel image_2x2 image_2x2.width 0 255 255 255 =
          ppm_image_setpixel image_2x2 0 1 255 255 255 ∧
        ppm_image_setpixel image_2x2 (-1) 1 255 255 255 =
          ppm_image_setpixel image_2x2 (image_2x2.width - 1) 0 255 255 255) :=
  ppm_image_setpixel_linear_offset image_2x2 _ 255 255 255 rfl rfl (by decide) (by decide)

/-- Claim C15: writes to distinct pixels commute.  On an initialized image with
`width * height ≤ 2^32`, for two different in-bounds coordinates the call at
`(x1, y1)` with colour `c1` followed by the call at `(x2, y2)` with colour `c2`
yields the same image as the two calls in the opposite order. -/
theorem ppm_image_setpixel_comm (im : ppm_image) (x1 y1 x2 y2 : Nat) (c1 c2 : ppm_pixel)
    (hinit : im.initialized) (hsize : im.width * im.height ≤ 4294967296)
    (hx1 : x1 < im.width) (hy1 : y1 < im.height) (hx2 : x2 < im.width) (hy2 : y2 < im.height)
    (hne : (x1, y1) ≠ (x2, y2)) :
    ∃ im12,
      (ppm_image_setpixel im x1 y1 c1.r c1.g c1.b).bind
          (fun i => ppm_image_setpixel i x2 y2 c2.r c2.g c2.b) = some im12 ∧
      (ppm_image_setpixel im x2 y2 c2.r c2.g c2.b).bind
          (fun i => ppm_image_setpixel i x1 y1 c1.r c1.g c1.b) = some im12 := by
  obtain ⟨mem, hpx, hlen⟩ := hinit
  have hidx : y1 * im.width + x1 ≠ y2 * im.width + x2 := by
    intro he
    obtain ⟨e1, e2⟩ := row_major_index_inj im.width x1 y1 x2 y2 hx1 hx2 he
    exact hne (by rw [e1, e2])
  have s1 := ppm_image_setpixel_row_major im mem x1 y1 c1.r c1.g c1.b hpx hlen hsize hx1 hy1
  have s2 := ppm_image_setpixel_row_major im mem x2 y2 c2.r c2.g c2.b hpx hlen hsize hx2 hy2
  have s12 := ppm_image_setpixel_row_major
    { im with px := some (mem.set (y1 * im.width + x1) { r := c1.r, g := c1.g, b := c1.b }) }
    (mem.set (y1 * im.width + x1) { r := c1.r, g := c1.g, b := c1.b }) x2 y2 c2.r c2.g c2.b rfl
    (by rw [List.length_set]; exact hlen) hsize hx2 hy2
  have s21 := ppm_image_setpixel_row_major
    { im with px := some (mem.set (y2 * im.width + x2) { r := c2.r, g := c2.g, b := c2.b }) }
    (mem.set (y2 * im.width + x2) { r := c2.r, g := c2.g, b := c2.b }) x1 y1 c1.r c1.g c1.b rfl
    (by rw [List.length_set]; exact hlen) hsize hx1 hy1
  refine ⟨{ im with
      px := some ((mem.set (y1 * im.width + x1) { r := c1.r, g := c1.g, b := c1.b }).set
                   (y2 * im.width + x2) { r := c2.r, g := c2.g, b := c2.b }) }, ?_, ?_⟩
  · rw [s1, Option.some_bind, s12]
  · rw [s2, Option.some_bind, s21]
    simp only
    rw [List.set_comm _ _ _ hidx]

/-- Claim C15 on the 2 x 2 black image: red at (0,0) and green at (1,1). -/
theorem ppm_image_setpixel_comm_witness :
    image_2x2.initialized ∧
    ∃ im12,
      (ppm_image_setpixel image_2x2 ((0 : Nat) : Int) ((0 : Nat) : Int) 255 0 0).bind
          (fun i => ppm_image_setpixel i ((1 : Nat) : Int) ((1 : Nat) : Int) 0 255 0) =
        some im12 ∧
      (ppm_image_setpixel image_2x2 ((1 : Nat) : Int) ((1 : Nat) : Int) 0 255 0).bind
          (fun i => ppm_image_setpixel i ((0 : Nat) : Int) ((0 : Nat) : Int) 255 0 0) =
        some im12 :=
  ⟨by decide, ppm_image_setpixel_comm image_2x2 0 0 1 1 { r := 255, g := 0, b := 0 }
    { r := 0, g := 255, b := 0 } (by decide) (by decide) (by decide) (by decide) (by decide)
    (by decide) (by decide)⟩

/-- Claim C16: last write wins.  On an initialized image, for in-bounds `(x,
y)` and colours `c1`, `c2`, the call with `c1` followed by the call with `c2`
at the same coordinates yields the image of the call with `c2` alone; repeating
the same call is idempotent. -/
theorem ppm_image_setpixel_last_write (im : ppm_image) (x y : Int) (c1 c2 : ppm_pixel)
    (hinit : im.initialized) (hx0 : 0 ≤ x) (hx : x < im.width) (hy0 : 0 ≤ y)
    (hy : y < im.height) :
    (∃ im2, ppm_image_setpixel im x y c2.r c2.g c2.b = some im2 ∧
        (ppm_image_setpixel im x y c1.r c1.g c1.b).bind
            (fun i => ppm_image_setpixel i x y c2.r c2.g c2.b) = some im2) ∧
      (ppm_image_setpixel im x y c1.r c1.g c1.b).bind
          (fun i => ppm_image_setpixel i x y c1.r c1.g c1.b) =
        ppm_image_setpixel im x y c1.r c1.g c1.b := by
  obtain ⟨mem, hpx, hlen⟩ := hinit
  have step : ∀ (a d : ppm_pixel),
      (ppm_image_setpixel im x y a.r a.g a.b).bind
          (fun i => ppm_image_setpixel i x y d.r d.g d.b) =
        ppm_image_setpixel im x y d.r d.g d.b := by
    intro a d
    have s1 := ppm_image_setpixel_in_bounds im mem x y a.r a.g a.b hpx hlen hx0 hx hy0 hy
    have s2 := ppm_image_setpixel_in_bounds im mem x y d.r d.g d.b hpx hlen hx0 hx hy0 hy
    have s12 := ppm_image_setpixel_in_bounds
      { im with px := some (mem.set (ppm_image_offset im.width x y).toNat
                             { r := a.r, g := a.g, b := a.b }) }
      (mem.set (ppm_image_offset im.width x y).toNat { r := a.r, g := a.g, b := a.b })
      x y d.r d.g d.b rfl (by rw [List.length_set]; exact hlen) hx0 hx hy0 hy
    rw [s1, Option.some_bind, s12, s2]
    simp only
    rw [List.set_set]
  refine ⟨⟨_, ppm_image_setpixel_in_bounds im mem x y c2.r c2.g c2.b hpx hlen hx0 hx hy0 hy, ?_⟩,
    step c1 c1⟩
  rw [step c1 c2]
  exact ppm_image_setpixel_in_bounds im mem x y c2.r c2.g c2.b hpx hlen hx0 hx hy0 hy

/-- Claim C16 on the 2 x 2 black image: red then green at (1,0). -/
theorem ppm_image_setpixel_last_write_witness :
    image_2x2.initialized ∧
    ((∃ im2, ppm_image_setpixel image_2x2 1 0 0 255 0 = some im2 ∧
        (ppm_image_setpixel image_2x2 1 0 255 0 0).bind
            (fun i => ppm_image_setpixel i 1 0 0 255 0) = some im2) ∧
      (ppm_image_setpixel image_2x2 1 0 255 0 0).bind
          (fun i => ppm_image_setpixel i 1 0 255 0 0) =
        ppm_image_setpixel image_2x2 1 0 255 0 0) :=
  ⟨by decide, ppm_image_setpixel_last_write image_2x2 1 0 { r := 255, g := 0, b := 0 }
    { r := 0, g := 255, b := 0 } (by decide) (by decide) (by decide) (by decide) (by decide)⟩
